import Mathlib

/-!
Verification of python-debpkgr against its natural-language specification.

The Python modules under debpkgr/ (compressr.py, hasher.py, signer.py,
debpkg.py, aptrepo.py) are shallowly embedded below.  Pure functions become
Lean functions; methods that mutate `self` become state-passing functions
returning the updated object; code that raises returns `Except` or an error
value.  External primitives (cryptographic digests, the filesystem, shlex
tokenisation) are parameters of the embedding.  Python dictionaries are
embedded as insertion-ordered association lists; `deb822` field lookup is
case-insensitive, as in python-debian's `Deb822Dict`.  String primitives are
implemented over character lists so that every definition evaluates inside
the kernel.
-/

namespace Debpkgr

/-- Split a character list on runs of whitespace, dropping empty pieces
(Python `str.split()` with no arguments). -/
def charSplitWS : List Char → List Char → List (List Char)
  | [], acc => if acc.isEmpty then [] else [acc.reverse]
  | c :: cs, acc =>
    if c.isWhitespace then
      if acc.isEmpty then charSplitWS cs [] else acc.reverse :: charSplitWS cs []
    else charSplitWS cs (c :: acc)

/-- Python `str.split()` with no arguments. -/
def pySplitWS (s : String) : List String :=
  (charSplitWS s.data []).map String.mk

/-- Python `str.capitalize()`: first character upper-cased, the rest
lower-cased. -/
def pyCapitalize (s : String) : String :=
  match s.data with
  | [] => ""
  | c :: rest => String.mk (c.toUpper :: rest.map Char.toLower)

/-- Python `str.upper()` (over the ASCII attribute names used here). -/
def pyUpper (s : String) : String :=
  String.mk (s.data.map Char.toUpper)

/-- Python `str.lower()` (over the ASCII field names used here). -/
def pyLower (s : String) : String :=
  String.mk (s.data.map Char.toLower)

/-- Python `x or default` for an optional string argument: `None` and the
empty string are falsy. -/
def pyOr (x : Option String) (dflt : String) : String :=
  match x with
  | some s => if s.isEmpty then dflt else s
  | none => dflt

/-- Python string comparison on character lists: lexicographic by code
point. -/
def charListLt : List Char → List Char → Bool
  | [], [] => false
  | [], _ :: _ => true
  | _ :: _, [] => false
  | a :: as, b :: bs =>
    if a.val < b.val then true
    else if b.val < a.val then false
    else charListLt as bs

/-- Python `a < b` on strings. -/
def pyStrLt (a b : String) : Bool := charListLt a.data b.data

/-- Index of the last occurrence of `c` in `cs`, if any
(Python `str.rfind`). -/
def listRfind (cs : List Char) (c : Char) : Option Nat :=
  match cs.reverse.findIdx? (fun x => x = c) with
  | some i => some (cs.length - 1 - i)
  | none => none

/-! ## compressr.py -/

/-- `os.path.splitext` for POSIX paths: split off the extension at the last
dot of the final path component, unless every character of the component
before that dot is itself a dot. -/
def splitext (p : String) : String × String :=
  let cs := p.data
  match listRfind cs '.' with
  | none => (p, "")
  | some di =>
    let si := match listRfind cs '/' with
      | some i => i + 1
      | none => 0
    if si ≤ di then
      let fnamePart := (cs.drop si).take (di - si)
      if fnamePart.any (fun c => c ≠ '.') then
        (String.mk (cs.take di), String.mk (cs.drop di))
      else (p, "")
    else (p, "")

/-- `Opener._normalize_extension`: drop the leading dot; an empty extension
becomes `none`. -/
def normalizeExt (ext : String) : Option String :=
  if ext.isEmpty then none else some (String.mk ext.data.tail)

/-- The `Filename` namedtuple of compressr.py. -/
structure FileN where
  path : String
  base_name : String
  extension : Option String
deriving DecidableEq, Repr

/-- `Opener._File`: split a path into the namedtuple. -/
def mkFileN (fpath : String) : FileN :=
  let be := splitext fpath
  ⟨fpath, be.1, normalizeExt be.2⟩

/-- Extensions registered for each decompressor in
`Opener._Decompressor_Factories`. -/
def decompressorExtensions : String → List String
  | "gz" => ["gz"]
  | "xz" => ["xz"]
  | "bz2" => ["bz2", "bzip2"]
  | _ => []

/-- The registered codec names (keys of `_Decompressor_Factories`). -/
def registeredCodecs : List String := ["gz", "xz", "bz2"]

/-- `Opener.__init__`: an absent or empty preference list falls back to
`[xz, bz2, gz]`; otherwise names outside the registered codec set are
dropped. -/
def openerPreferences (preferences : Option (List String)) : List String :=
  match preferences with
  | none => ["xz", "bz2", "gz"]
  | some ps =>
    if ps.isEmpty then ["xz", "bz2", "gz"]
    else ps.filter (fun x => registeredCodecs.contains x)

/-- The `rank_dict` entries built by `best_choice` from the preference list:
each codec extension is assigned its preference index (a later assignment to
the same extension wins, as in a Python dict). -/
def rankEntries (prefs : List String) : List (String × Nat) :=
  prefs.enum.foldl
    (fun acc p => acc ++ (decompressorExtensions p.2).map (fun e => (e, p.1))) []

/-- Lookup in `rank_dict`: a recognised extension maps to its preference
index, no extension maps to 1000, anything else is absent. -/
def rankOf (prefs : List String) : Option String → Option Nat
  | none => some 1000
  | some e => ((rankEntries prefs).reverse.find? (fun kv => kv.1 = e)).map (fun kv => kv.2)

/-- `objs.setdefault(f.base_name, set()).add(f)`: group a candidate under its
base name, keeping insertion order and set semantics (no duplicates). -/
def addToGroups (gs : List (String × List FileN)) (f : FileN) :
    List (String × List FileN) :=
  match gs with
  | [] => [(f.base_name, [f])]
  | (b, fs) :: rest =>
    if b = f.base_name then
      (b, if fs.contains f then fs else fs ++ [f]) :: rest
    else (b, fs) :: addToGroups rest f

/-- Insert one group into a list sorted by base name (`sorted(objs.items())`
sorts on the keys, which are distinct). -/
def insertGroup (g : String × List FileN) :
    List (String × List FileN) → List (String × List FileN)
  | [] => [g]
  | g1 :: rest =>
    if pyStrLt g.1 g1.1 then g :: g1 :: rest else g1 :: insertGroup g rest

/-- Sort the groups by base name. -/
def sortGroups : List (String × List FileN) → List (String × List FileN)
  | [] => []
  | g :: rest => insertGroup g (sortGroups rest)

/-- Python `min(objs, key=...)`: the first element attaining the minimal key
in iteration order. -/
def minFrom (r : FileN → Nat) (cur : FileN) : List FileN → FileN
  | [] => cur
  | f :: fs => if r f < r cur then minFrom r f fs else minFrom r cur fs

/-- `Opener.best_choice`: drop candidates whose extension is outside
`rank_dict`, group the rest by base name, and return the most preferred
member of each group, one per base name, sorted by base name. -/
def best_choice (prefs : List String) (file_names : List String) : List String :=
  let kept := (file_names.map mkFileN).filter
    (fun f => (rankOf prefs f.extension).isSome)
  let groups := kept.foldl addToGroups []
  (sortGroups groups).filterMap (fun g =>
    match g.2 with
    | [] => none
    | f :: fs =>
      some (minFrom (fun x => (rankOf prefs x.extension).getD 1000) f fs).path)

/-- The candidates `best_choice` keeps: those whose extension is in
`rank_dict` (a recognised codec extension, or none). -/
def keptFiles (prefs : List String) (names : List String) : List FileN :=
  (names.map mkFileN).filter (fun f => (rankOf prefs f.extension).isSome)

/-- The grouping dict `objs` of `best_choice` after all candidates are
added. -/
def groupsOf (prefs : List String) (names : List String) :
    List (String × List FileN) :=
  (keptFiles prefs names).foldl addToGroups []

/-- The winner `best_choice` emits for one group. -/
def pickWinner (prefs : List String) (g : String × List FileN) : Option String :=
  match g.2 with
  | [] => Option.none
  | f :: fs =>
    some (minFrom (fun x => (rankOf prefs x.extension).getD 1000) f fs).path

/-- Well-formedness of the grouping dict: distinct keys, and every group
non-empty with members carrying the group's base name. -/
def GroupsWF (gs : List (String × List FileN)) : Prop :=
  (gs.map Prod.fst).Nodup ∧ ∀ g ∈ gs, g.2 ≠ [] ∧ ∀ f ∈ g.2, f.base_name = g.1

/-- Every group member was one of the processed candidates. -/
def GroupsSub (gs : List (String × List FileN)) (done : List FileN) : Prop :=
  ∀ g ∈ gs, ∀ f ∈ g.2, f ∈ done

/-- Every processed candidate sits in some group. -/
def GroupsCov (done : List FileN) (gs : List (String × List FileN)) : Prop :=
  ∀ f ∈ done, ∃ g ∈ gs, f ∈ g.2

/-! ## hasher.py

The digest of an algorithm over a byte string is an external primitive
(hashlib); it enters the embedding as a parameter
`hex : String → List Nat → String` mapping an algorithm name and the bytes
fed so far to the hex digest.  Bytes are `Nat`s. -/

/-- `Hasher` state: one live digester per selected algorithm, modelled by the
bytes fed to it so far, plus the memoized digest mapping (`self._digests`). -/
structure Hasher where
  hashers : List (String × List Nat)
  _digests : Option (List (String × String))
deriving DecidableEq, Repr

/-- The algorithms a `Hasher(algorithms)` keeps: absent/empty means all
available; the hashers dict is built by filtering the available algorithms by
membership in the selected set. -/
def selectedAlgs (available algorithms : List String) : List String :=
  let algs := if algorithms.isEmpty then available else algorithms
  available.filter (fun a => algs.contains a)

/-- `Hasher.__init__` / `reset`: fresh digesters, no memoized digests. -/
def Hasher.init (available algorithms : List String) : Hasher :=
  ⟨(selectedAlgs available algorithms).map (fun a => (a, [])), Option.none⟩

/-- `Hasher.update`: a no-op for empty input; otherwise invalidates the
memoized digests and feeds the data to every live digester. -/
def Hasher.update (h : Hasher) (data : List Nat) : Hasher :=
  if data.isEmpty then h
  else ⟨h.hashers.map (fun p => (p.1, p.2 ++ data)), Option.none⟩

/-- The `digests` property: serve the memoized mapping if present, else
compute it from the live digesters and memoize it.  Returns the mapping and
the (possibly updated) object. -/
def Hasher.digestsRead (hex : String → List Nat → String) (h : Hasher) :
    List (String × String) × Hasher :=
  match h._digests with
  | some d => (d, h)
  | Option.none =>
    let d := h.hashers.map (fun p => (p.1, hex p.1 p.2))
    (d, ⟨h.hashers, some d⟩)

/-- Cache coherence of a `Hasher`: the memoized digests, when present, are
exactly the digests of the bytes fed so far. -/
def hasherCoherent (hex : String → List Nat → String) (h : Hasher) : Prop :=
  h._digests = Option.none
    ∨ h._digests = some (h.hashers.map (fun p => (p.1, hex p.1 p.2)))

/-- An interaction with a `Hasher`: feed bytes or read the digests. -/
inductive HOp where
  | upd (data : List Nat)
  | read
deriving DecidableEq, Repr

/-- Run a sequence of interactions, collecting what every read returned. -/
def Hasher.runOps (hex : String → List Nat → String) (h : Hasher) :
    List HOp → List (List (String × String))
  | [] => []
  | HOp.upd d :: ops => (h.update d).runOps hex ops
  | HOp.read :: ops =>
    let r := h.digestsRead hex
    r.1 :: r.2.runOps hex ops

/-- What each read ought to return: for every selected algorithm, the digest
of exactly the bytes fed so far. -/
def specFedReads (hex : String → List Nat → String) (algs : List String)
    (fed : List Nat) : List HOp → List (List (String × String))
  | [] => []
  | HOp.upd d :: ops => specFedReads hex algs (fed ++ d) ops
  | HOp.read :: ops =>
    (algs.map (fun a => (a, hex a fed))) :: specFedReads hex algs fed ops

/-- `HashFile.BLOCKSIZE`. -/
def BLOCKSIZE : Nat := 65536

/-- The blocks in which `HashFile.digests` reads a file. -/
def chunksOf (data : List Nat) : List (List Nat) :=
  if data.isEmpty then []
  else data.take BLOCKSIZE :: chunksOf (data.drop BLOCKSIZE)
termination_by data.length
decreasing_by
  simp only [List.length_drop]
  cases data with
  | nil => simp_all
  | cons a as => simp [BLOCKSIZE]; omega

/-- `HashFile(path, algorithms).digests`: stream the file contents through a
`Hasher` in `BLOCKSIZE`-byte blocks and read the digests once. -/
def hashFileDigests (hex : String → List Nat → String) (available : List String)
    (contents : List Nat) (algs : List String) : List (String × String) :=
  let h := (chunksOf contents).foldl Hasher.update (Hasher.init available algs)
  (h.digestsRead hex).1

/-- Module-level `hash_file(path, algs)`; the filesystem enters as the
parameter `contents`. -/
def hash_file (hex : String → List Nat → String) (available : List String)
    (contents : String → List Nat) (path : String) (algs : List String) :
    List (String × String) :=
  hashFileDigests hex available (contents path) algs

/-- The `translation` dict of `deb_hash_file`. -/
def debTranslation : List (String × String) :=
  [("md5", "MD5sum"), ("sha1", "SHA1"), ("sha256", "SHA256")]

/-- The key renaming `translation[x]` of `deb_hash_file` (the lookup cannot
miss: the digest keys come from the translation dict itself). -/
def debKeyRename (a : String) : String :=
  match debTranslation.find? (fun t => t.1 == a) with
  | some t => t.2
  | Option.none => a

/-- `deb_hash_file(path)`: hash with the translation dict's keys as the
algorithms, then rename each result key through the dict. -/
def deb_hash_file (hex : String → List Nat → String) (available : List String)
    (contents : String → List Nat) (path : String) : List (String × String) :=
  let digests := hash_file hex available contents path (debTranslation.map (fun t => t.1))
  digests.map (fun p => (debKeyRename p.1, p.2))

/-! ## signer.py -/

/-- A Python attribute value as stored on a `SignOptions` object: `None`, a
string, or the tokenized command vector. -/
inductive PyVal where
  | none
  | str (s : String)
  | strlist (xs : List String)
deriving DecidableEq, Repr

/-- Python `str(v)` for the attribute values above (`None` is filtered out
before `str` is ever applied in `as_environment`). -/
def pyStr : PyVal → String
  | PyVal.none => "None"
  | PyVal.str s => s
  | PyVal.strlist xs =>
    "[" ++ String.intercalate ", " (xs.map (fun x => "\x27" ++ x ++ "\x27")) ++ "]"

/-- `setattr`: overwrite in place, else append (Python `__dict__` keeps
insertion order). -/
def setAttr : List (String × PyVal) → String → PyVal → List (String × PyVal)
  | [], k, v => [(k, v)]
  | (k1, v1) :: rest, k, v =>
    if k1 = k then (k, v) :: rest else (k1, v1) :: setAttr rest k v

/-- `getattr`. -/
def getAttr (attrs : List (String × PyVal)) (k : String) : Option PyVal :=
  (attrs.find? (fun kv => kv.1 == k)).map (fun kv => kv.2)

/-- Does the attribute name carry the implementation-private marker? -/
def startsWithUnderscore (k : String) : Bool :=
  match k.data with
  | '_' :: _ => true
  | _ => false

/-- Python `k.replace('-', '_')`. -/
def replaceHyphens (k : String) : String :=
  String.mk (k.data.map (fun c => if c = '-' then '_' else c))

/-- A `SignOptions` object: its `__dict__` in insertion order. -/
structure SignOptions where
  attrs : List (String × PyVal)
deriving DecidableEq, Repr

/-- `SignOptions.__init__`.  `shlexSplit` stands for `shlex.split`, and
`isfile`/`isexec` for `os.path.isfile`/`os.access(..., X_OK)`. -/
def SignOptions.init (shlexSplit : String → List String)
    (isfile isexec : String → Bool) (cmd key_id : Option String)
    (kwargs : List (String × PyVal)) : Except String SignOptions :=
  match cmd with
  | Option.none => Except.error "Command not specified"
  | some c =>
    if c.isEmpty then Except.error "Command not specified"
    else
      let args := shlexSplit c
      match args.head? with
      | Option.none => Except.error "IndexError"
      | some a0 =>
        if ¬ isfile a0 then Except.error ("Command " ++ a0 ++ " is not a file")
        else if ¬ isexec a0 then Except.error ("Command " ++ a0 ++ " is not executable")
        else
          let base : List (String × PyVal) :=
            [("cmd", PyVal.str c), ("_cmdargs", PyVal.strlist args),
             ("key_id", match key_id with | some k => PyVal.str k | Option.none => PyVal.none),
             ("repository_name", PyVal.none), ("dist", PyVal.none),
             ("extra", PyVal.none)]
          Except.ok ⟨kwargs.foldl (fun a kv => setAttr a kv.1 kv.2) base⟩

/-- `SignOptions.as_environment`: every attribute that is not private and not
`None` becomes `GPG_` + the name with hyphens replaced by underscores,
upper-cased. -/
def SignOptions.as_environment (so : SignOptions) : List (String × String) :=
  so.attrs.filterMap (fun kv =>
    if startsWithUnderscore kv.1 ∨ kv.2 = PyVal.none then Option.none
    else some ("GPG_" ++ pyUpper (replaceHyphens kv.1), pyStr kv.2))

/-- The `_cmdargs` attribute as a list. -/
def SignOptions.cmdargs (so : SignOptions) : List String :=
  match getAttr so.attrs "_cmdargs" with
  | some (PyVal.strlist xs) => xs
  | _ => []

/-- One subprocess invocation as `Signer.sign` issues it: the argument vector
and the environment (stdout/stderr capture and the exit status are outside
the embedding). -/
structure SignCall where
  argv : List String
  env : List (String × String)
deriving DecidableEq, Repr

/-- `Signer.sign(path)` with options present: `cmd = self.options._cmdargs;
cmd.append(path)` mutates the options object's own list, then the subprocess
is spawned on that list with `as_environment()`. -/
def Signer.sign (so : SignOptions) (path : String) : SignOptions × SignCall :=
  let newArgs := so.cmdargs ++ [path]
  let so2 : SignOptions := ⟨setAttr so.attrs "_cmdargs" (PyVal.strlist newArgs)⟩
  (so2, ⟨newArgs, so2.as_environment⟩)

/-! ## debpkg.py (read_md5sums) -/

/-- `DebPkg.ENCODINGS`. -/
def ENCODINGS : List String := ["utf-8", "iso-8859-1"]

/-- What one call `pkg.md5sums(encoding=enc)` can do: succeed with the parsed
per-file manifest, raise a `UnicodeDecodeError`, or raise a
`debfile.DebError` (no manifest in the archive). -/
inductive MD5Outcome where
  | ok (manifest : List (String × String))
  | unicodeError (e : String)
  | debError (msg : String)
deriving DecidableEq, Repr

/-- What `DebPkg.read_md5sums` can do: return a manifest (with the encoding
that decoded it), warn and return `None`, or propagate an error. -/
inductive ReadMD5Result where
  | manifest (m : List (String × String)) (encoding : String)
  | warnedNone (warning : String)
  | raised (e : String)
deriving DecidableEq, Repr

/-- The encoding loop of `read_md5sums`: a `UnicodeDecodeError` moves on to
the next encoding, a `DebError` warns and returns `None`; when every encoding
has failed, the trailing bare `raise` re-raises the last exception
("Re-raise last exception if we ran out of encodings to try", as the source
comment puts it). -/
def read_md5sums_loop (attempt : String → MD5Outcome) :
    List String → Option String → ReadMD5Result
  | [], last =>
    ReadMD5Result.raised (match last with | some e => e | Option.none => "RuntimeError")
  | enc :: rest, _ =>
    match attempt enc with
    | MD5Outcome.ok m => ReadMD5Result.manifest m enc
    | MD5Outcome.unicodeError e => read_md5sums_loop attempt rest (some e)
    | MD5Outcome.debError msg => ReadMD5Result.warnedNone msg

/-- `DebPkg.read_md5sums`. -/
def read_md5sums (attempt : String → MD5Outcome) : ReadMD5Result :=
  read_md5sums_loop attempt ENCODINGS Option.none

/-- The manifest value `from_file` passes on to `DebPkg.__init__` (on a
raised error the constructor is never reached). -/
def readResultManifest : ReadMD5Result → Option (List (String × String))
  | ReadMD5Result.manifest m _ => some m
  | _ => Option.none

/-- `DebPkg.__init__`: `self._md5 = DebPkgMD5sums(md5sums)`;
`DebPkgMD5sums(None)` parses nothing, so the per-file hash map is empty. -/
def debPkgMD5Field (md5sums : Option (List (String × String))) :
    List (String × String) :=
  match md5sums with
  | some m => m
  | Option.none => []

/-! ## aptrepo.py -/

/-- One row of a Release checksum table (`{name, size, digest}`; the digest
key name — md5sum/sha1/sha256 — is irrelevant to the embedded logic). -/
structure ChecksumEntry where
  name : String
  size : String
  digest : String
deriving DecidableEq, Repr

/-- A value of a Release field: a plain string or a checksum table. -/
inductive RelVal where
  | str (s : String)
  | table (entries : List ChecksumEntry)
deriving DecidableEq, Repr

/-- A `deb822.Release` document: fields in order, looked up
case-insensitively. -/
abbrev Release := List (String × RelVal)

/-- Case-insensitive field lookup (`Deb822Dict` keys compare
case-insensitively). -/
def getCI (r : Release) (k : String) : Option RelVal :=
  (r.find? (fun kv => pyLower kv.1 == pyLower k)).map (fun kv => kv.2)

/-- `Deb822Dict.setdefault`: return the present value, or insert and return
the default. -/
def relSetdefault (r : Release) (k : String) (v : RelVal) : RelVal × Release :=
  match getCI r k with
  | some v0 => (v0, r)
  | Option.none => (v, r ++ [(k, v)])

/-- `ComponentArchBinary`: its Release-like sub-document and the owning
distribution codename (the in-memory package list plays no part in the
properties below and is omitted). -/
structure ComponentArchBinary where
  release : Release
  dist : Option RelVal
deriving DecidableEq, Repr

/-- The `component` property: `self.release['Component']`. -/
def ComponentArchBinary.component (o : ComponentArchBinary) : Option RelVal :=
  getCI o.release "Component"

/-- The `architecture` property: `self.release['Architecture']`. -/
def ComponentArchBinary.architecture (o : ComponentArchBinary) : Option RelVal :=
  getCI o.release "Architecture"

/-- `AptRepoMeta`: the Release document, the component/arch index list and
the upstream url. -/
structure AptRepoMeta where
  release : Release
  _component_arch_binaries : List ComponentArchBinary
  upstream_url : Option String
deriving DecidableEq, Repr

/-- The `components` property: `self.release.get('Components', '').split()`. -/
def AptRepoMeta.components (m : AptRepoMeta) : List String :=
  match getCI m.release "Components" with
  | some (RelVal.str s) => pySplitWS s
  | _ => []

/-- The `architectures` property. -/
def AptRepoMeta.architectures (m : AptRepoMeta) : List String :=
  match getCI m.release "Architectures" with
  | some (RelVal.str s) => pySplitWS s
  | _ => []

/-- The `codename` property: `self.release.get('Codename')`. -/
def AptRepoMeta.codename (m : AptRepoMeta) : Option RelVal :=
  getCI m.release "Codename"

/-- Python `x or fallback` where the fallback is an already-looked-up Release
value. -/
def pyOrRel (x : Option String) (fallback : RelVal) : RelVal :=
  match x with
  | some s => if s.isEmpty then fallback else RelVal.str s
  | Option.none => fallback

/-- `AptRepoMeta.__init__` followed by `set_date` (the formatted current time
enters as the parameter `now`). -/
def AptRepoMeta.init (now : String) (release : Option Release)
    (origin label version description codename : Option String)
    (components architectures : Option (List String))
    (upstream_url : Option String) : AptRepoMeta :=
  let rel0 := match release with | some r => r | Option.none => []
  let archList := match architectures with | some a => a | Option.none => ["amd64", "i386"]
  let compList := match components with | some c => c | Option.none => []
  let r1 := (relSetdefault rel0 "Architectures"
    (RelVal.str (String.intercalate " " archList))).2
  let r2 := (relSetdefault r1 "Components"
    (RelVal.str (String.intercalate " " compList))).2
  let cnP := relSetdefault r2 "Codename" (RelVal.str (pyOr codename "foo"))
  let r4 := (relSetdefault cnP.2 "Suite" cnP.1).2
  let r5 := (relSetdefault r4 "Description" (pyOrRel description cnP.1)).2
  let orP := relSetdefault r5 "Origin" (pyOrRel origin cnP.1)
  let r7 := (relSetdefault orP.2 "Label" (pyOrRel label orP.1)).2
  let r8 := (relSetdefault r7 "Version" (RelVal.str (pyOr version "1.0"))).2
  let r9 := (relSetdefault r8 "Date" (RelVal.str now)).2
  ⟨r9, [], upstream_url⟩

/-- The errors `add_component_arch_binary` can raise. -/
inductive PyErr where
  | valueError (msg : String)
  | keyError (key : String)
deriving DecidableEq, Repr

/-- `AptRepoMeta.add_component_arch_binary(meta=dict(component=...,
architecture=...))`: default the meta's origin/label/description from the
repository Release, build the `ComponentArchBinary` (its sub-Release gets the
meta items under capitalized keys, its dist is `release['Codename']`), then
validate the component and architecture against the declared lists; only
after both checks does the object join `self._component_arch_binaries`. -/
def add_component_arch_binary (m : AptRepoMeta) (component architecture : String) :
    Except PyErr ComponentArchBinary × AptRepoMeta :=
  match getCI m.release "Origin", getCI m.release "Label",
        getCI m.release "Description", getCI m.release "Codename" with
  | some o, some l, some d, some cn =>
    let metaItems : List (String × RelVal) :=
      [("component", RelVal.str component), ("architecture", RelVal.str architecture),
       ("origin", o), ("label", l), ("description", d)]
    let rel := metaItems.foldl (fun r kv => (relSetdefault r (pyCapitalize kv.1) kv.2).2) []
    let obj : ComponentArchBinary := ⟨rel, some cn⟩
    match obj.component, obj.architecture with
    | some (RelVal.str c), some (RelVal.str a) =>
      if ¬ m.components.contains c then
        (Except.error (PyErr.valueError ("Component " ++ c ++ " not supported (expected: "
          ++ String.intercalate ", " m.components ++ ")")), m)
      else if ¬ m.architectures.contains a then
        (Except.error (PyErr.valueError ("Architecture " ++ a ++ " not defined (expected: "
          ++ String.intercalate ", " m.architectures ++ ")")), m)
      else
        (Except.ok obj,
         { m with _component_arch_binaries := m._component_arch_binaries ++ [obj] })
    | _, _ => (Except.error (PyErr.keyError "Component"), m)
  | _, _, _, _ => (Except.error (PyErr.keyError "Origin"), m)

/-- `AptRepoMeta.get_component_arch_binary`: return the matching existing
index object, else create one. -/
def get_component_arch_binary (m : AptRepoMeta) (component architecture : String) :
    Except PyErr ComponentArchBinary × AptRepoMeta :=
  match m._component_arch_binaries.find? (fun o =>
      o.component == some (RelVal.str component)
        && o.architecture == some (RelVal.str architecture)) with
  | some obj => (Except.ok obj, m)
  | Option.none => add_component_arch_binary m component architecture

/-- Strip trailing slashes (`head.rstrip('/')`). -/
def dropTrailingSlashes (cs : List Char) : List Char :=
  (cs.reverse.dropWhile (fun c => c = '/')).reverse

/-- `os.path.dirname` for POSIX paths: everything up to the last slash, with
trailing slashes stripped unless the head is all slashes. -/
def dirname (p : String) : String :=
  let cs := p.data
  let i := match listRfind cs '/' with | some j => j + 1 | Option.none => 0
  let head := cs.take i
  if ¬ head.isEmpty ∧ head.any (fun c => c ≠ '/') then
    String.mk (dropTrailingSlashes head)
  else String.mk head

/-- Does the path start with a slash? -/
def startsWithSlash (b : String) : Bool :=
  match b.data with
  | '/' :: _ => true
  | _ => false

/-- Does the path end with a slash? -/
def endsWithSlash (a : String) : Bool :=
  match a.data.getLast? with
  | some '/' => true
  | _ => false

/-- `os.path.join` for POSIX paths, two arguments. -/
def pyJoin (a b : String) : String :=
  if startsWithSlash b then b
  else if a.isEmpty ∨ endsWithSlash a then a ++ b
  else a ++ "/" ++ b

/-- `comp_arch_bin_packages.setdefault(dirname, []).append(entry)`. -/
def groupAddCE (gs : List (String × List ChecksumEntry)) (d : String)
    (e : ChecksumEntry) : List (String × List ChecksumEntry) :=
  match gs with
  | [] => [(d, [e])]
  | (d1, es) :: rest =>
    if d1 = d then (d1, es ++ [e]) :: rest else (d1, es) :: groupAddCE rest d e

/-- Exact-key lookup in the per-digest directory grouping. -/
def lookupGroup (gs : List (String × List ChecksumEntry)) (k : String) :
    Option (List ChecksumEntry) :=
  (gs.find? (fun g => g.1 == k)).map (fun g => g.2)

/-- `AptRepoMeta.component_arch_binary_package_files_from_release`: scan the
digest tables under the keys `SHA256`, `SHA1`, `MD5` in that order; for each
table present, group its entries by the directory part of their name and bind
every not-yet-resolved declared (component, architecture) pair whose
directory `<component>/binary-<architecture>` occurs among the groups. -/
def component_arch_binary_package_files_from_release (m : AptRepoMeta) :
    List ((String × String) × List ChecksumEntry) :=
  let digests := ["SHA256", "SHA1", "MD5"]
  digests.foldl (fun ret digest_name =>
    match getCI m.release digest_name with
    | some (RelVal.table entries) =>
      let groups := entries.foldl (fun gs e => groupAddCE gs (dirname e.name) e) []
      m.components.foldl (fun ret comp =>
        m.architectures.foldl (fun ret arch =>
          if ret.any (fun x => x.1 == (comp, arch)) then ret
          else
            match lookupGroup groups (pyJoin comp ("binary-" ++ arch)) with
            | some es => ret ++ [((comp, arch), es)]
            | Option.none => ret) ret) ret
    | _ => ret) []

/-- `AptRepo`: base path, metadata and optional sign options. -/
structure AptRepo where
  base_path : String
  metadata : AptRepoMeta
  gpg_sign_options : Option SignOptions
deriving DecidableEq, Repr

/-- The `repo_name` property: the metadata codename. -/
def AptRepo.repo_name (r : AptRepo) : Option RelVal := r.metadata.codename

/-- The Python value assigned by
`self.gpg_sign_options.repository_name = self.repo_name`. -/
def optRelValToPyVal : Option RelVal → PyVal
  | some (RelVal.str s) => PyVal.str s
  | some (RelVal.table _) => PyVal.none
  | Option.none => PyVal.none

/-- `AptRepo.sign(release_file)`: a no-op without sign options; otherwise set
`repository_name` on the sign options from `repo_name` and delegate to
`Signer.sign`. -/
def AptRepo.sign (r : AptRepo) (release_file : String) : AptRepo × Option SignCall :=
  match r.gpg_sign_options with
  | Option.none => (r, Option.none)
  | some so =>
    let so1 : SignOptions := ⟨setAttr so.attrs "repository_name" (optRelValToPyVal r.repo_name)⟩
    let res := Signer.sign so1 release_file
    ({ r with gpg_sign_options := some res.1 }, some res.2)

/-! ## Concrete instances used by the theorems below -/

/-- A metadata object whose Release document carries only an `MD5Sum`
checksum table (no `SHA256`, no `SHA1`), with one declared component and
architecture whose directory `main/binary-amd64` appears among the table's
names (the entry is the one from the repository's own unit-test data). -/
def mdOnlyMeta : AptRepoMeta :=
  ⟨[("Architectures", RelVal.str "amd64"), ("Components", RelVal.str "main"),
    ("MD5Sum", RelVal.table
      [⟨"main/binary-amd64/Packages", "538", "62dfc288d6b0dee2b157b6de1ad8db3a"⟩])],
   [], Option.none⟩

/-- The same metadata with the table stored under `SHA256` instead. -/
def sha256OnlyMeta : AptRepoMeta :=
  ⟨[("Architectures", RelVal.str "amd64"), ("Components", RelVal.str "main"),
    ("SHA256", RelVal.table
      [⟨"main/binary-amd64/Packages", "538", "62dfc288d6b0dee2b157b6de1ad8db3a"⟩])],
   [], Option.none⟩

/-- The metadata of the repository's unit tests: codename `stable`,
components `main updates`, architectures `amd64 i386 aarch64`. -/
def unitTestMeta : AptRepoMeta :=
  AptRepoMeta.init "Sat, 02 Jul 2016 05:20:50 +0000" Option.none
    (some "unit_test_repo_foo") (some "unit_test_repo_foo") (some "2.0")
    (some "Apt repository for Unit Test Repo Foo") (some "stable")
    (some ["main", "updates"]) (some ["amd64", "i386", "aarch64"]) Option.none

/-- An `AptRepoMeta` built with no explicit release document and no
overrides. -/
def defaultMeta : AptRepoMeta :=
  AptRepoMeta.init "Sat, 02 Jul 2016 05:20:50 +0000" Option.none Option.none
    Option.none Option.none Option.none Option.none Option.none Option.none
    Option.none

/-- Sign options as `SignOptions.__init__` leaves them for an executable
one-token command, before any signing call. -/
def signmeOptions : SignOptions :=
  ⟨[("cmd", PyVal.str "signme"), ("_cmdargs", PyVal.strlist ["signme"]),
    ("key_id", PyVal.none), ("repository_name", PyVal.none),
    ("dist", PyVal.none), ("extra", PyVal.none)]⟩

/-- The repository of `test_AptRepo_sign`: codename `unit_test_repo_foo`,
sign options configured. -/
def signRepo : AptRepo :=
  ⟨"/base",
   AptRepoMeta.init "NOW" Option.none Option.none Option.none Option.none
     Option.none (some "unit_test_repo_foo") Option.none Option.none Option.none,
   some signmeOptions⟩

/-- `SignOptions(cmd="/bin/bash", repository_name="My repo")`.  For this
whitespace-only command string `shlex.split` agrees with whitespace
splitting; the filesystem checks hold of `/bin/bash`. -/
def binBashOptions : Except String SignOptions :=
  SignOptions.init pySplitWS (fun _ => true) (fun _ => true) (some "/bin/bash")
    Option.none [("repository_name", PyVal.str "My repo")]

/-- The same object after `options.extra = "foo"`, projected through
`as_environment()`. -/
def binBashEnv : Except String (List (String × String)) :=
  binBashOptions.map (fun so =>
    SignOptions.as_environment ⟨setAttr so.attrs "extra" (PyVal.str "foo")⟩)

/-! ## Shared lemmas -/

lemma getAttr_cons (k1 : String) (v1 : PyVal) (rest : List (String × PyVal))
    (k : String) :
    getAttr ((k1, v1) :: rest) k = if k1 = k then some v1 else getAttr rest k := by
  by_cases h : k1 = k <;> simp [getAttr, List.find?_cons, h]

lemma setAttr_cons (k1 : String) (v1 : PyVal) (rest : List (String × PyVal))
    (k : String) (v : PyVal) :
    setAttr ((k1, v1) :: rest) k v =
      if k1 = k then (k, v) :: rest else (k1, v1) :: setAttr rest k v := rfl

lemma getAttr_setAttr_same (l : List (String × PyVal)) (k : String) (v : PyVal) :
    getAttr (setAttr l k v) k = some v := by
  induction l with
  | nil => simp [setAttr, getAttr_cons]
  | cons kv rest ih =>
    obtain ⟨k1, v1⟩ := kv
    rw [setAttr_cons]
    by_cases h : k1 = k
    · simp [h, getAttr_cons]
    · rw [if_neg h, getAttr_cons, if_neg h]
      exact ih

lemma getAttr_setAttr_other (l : List (String × PyVal)) (k k2 : String) (v : PyVal)
    (h : k2 ≠ k) : getAttr (setAttr l k v) k2 = getAttr l k2 := by
  induction l with
  | nil =>
    simp only [setAttr]
    rw [getAttr_cons, if_neg (fun hk => h hk.symm)]
  | cons kv rest ih =>
    obtain ⟨k1, v1⟩ := kv
    rw [setAttr_cons]
    by_cases hk : k1 = k
    · subst hk
      rw [if_pos rfl, getAttr_cons, getAttr_cons,
        if_neg (fun hx => h hx.symm), if_neg]
      intro hx
      exact h hx.symm
    · rw [if_neg hk, getAttr_cons, getAttr_cons]
      by_cases h2 : k1 = k2
      · simp [h2]
      · rw [if_neg h2, if_neg h2]
        exact ih

lemma cmdargs_after_setAttr (attrs : List (String × PyVal)) (xs : List String) :
    SignOptions.cmdargs ⟨setAttr attrs "_cmdargs" (PyVal.strlist xs)⟩ = xs := by
  simp [SignOptions.cmdargs, getAttr_setAttr_same]

/-- The sub-Release an index object is built with: the five meta items under
their capitalized keys (evaluation of the `setdefault` fold). -/
lemma buildCabRel_eval (c a : String) (o l d : RelVal) :
    (([("component", RelVal.str c), ("architecture", RelVal.str a), ("origin", o),
      ("label", l), ("description", d)] : List (String × RelVal)).foldl
      (fun r kv => (relSetdefault r (pyCapitalize kv.1) kv.2).2) [])
    = [("Component", RelVal.str c), ("Architecture", RelVal.str a), ("Origin", o),
       ("Label", l), ("Description", d)] := rfl

lemma getCI_cabRel_component (c a : String) (o l d : RelVal) :
    getCI [("Component", RelVal.str c), ("Architecture", RelVal.str a), ("Origin", o),
       ("Label", l), ("Description", d)] "Component" = some (RelVal.str c) := rfl

lemma getCI_cabRel_architecture (c a : String) (o l d : RelVal) :
    getCI [("Component", RelVal.str c), ("Architecture", RelVal.str a), ("Origin", o),
       ("Label", l), ("Description", d)] "Architecture" = some (RelVal.str a) := rfl

/-! ## C1: the MD5Sum fallback of
`component_arch_binary_package_files_from_release` -/

/-- C1: the declared pair (`main`, `amd64`) has its directory
`main/binary-amd64` among the `MD5Sum` entries of `mdOnlyMeta`, whose release
document carries no `SHA256` and no `SHA1` table — yet the function resolves
nothing: the loop looks the MD5 table up under the key `MD5`, which never
matches the Release field `MD5Sum`, so a Release with only an MD5 table
yields the empty mapping (the repository's functional test
`test__create_Packages_download_requests__md5` expects the two pairs to
resolve in this situation). -/
theorem md5_only_release_resolves_nothing :
    component_arch_binary_package_files_from_release mdOnlyMeta = []
      ∧ component_arch_binary_package_files_from_release sha256OnlyMeta
        = [(("main", "amd64"),
            [⟨"main/binary-amd64/Packages", "538", "62dfc288d6b0dee2b157b6de1ad8db3a"⟩])] :=
  ⟨rfl, rfl⟩

/-! ## C2: rejection of undeclared components and architectures -/

/-- C2: for a metadata object whose Release document carries the
`Origin`/`Label`/`Description`/`Codename` fields (as every constructed one
does), creating an index for an undeclared component raises a `ValueError`
whose message is exactly
`Component <X> not supported (expected: <components joined by comma-space>)`,
and — for a declared component — an undeclared architecture raises
`Architecture <Y> not defined (expected: <architectures joined by
comma-space>)`; in both cases the returned metadata state is the input state,
the object having never been appended. -/
theorem add_component_arch_binary_rejects_undeclared
    (m : AptRepoMeta) (c a : String) (o l d cn : RelVal)
    (hO : getCI m.release "Origin" = some o)
    (hL : getCI m.release "Label" = some l)
    (hD : getCI m.release "Description" = some d)
    (hC : getCI m.release "Codename" = some cn) :
    (¬ c ∈ m.components →
      add_component_arch_binary m c a =
        (Except.error (PyErr.valueError ("Component " ++ c ++ " not supported (expected: "
          ++ String.intercalate ", " m.components ++ ")")), m))
    ∧ (c ∈ m.components → ¬ a ∈ m.architectures →
      add_component_arch_binary m c a =
        (Except.error (PyErr.valueError ("Architecture " ++ a ++ " not defined (expected: "
          ++ String.intercalate ", " m.architectures ++ ")")), m)) := by
  constructor
  · intro hc
    have hc2 : m.components.contains c = false := by
      simpa using hc
    simp only [add_component_arch_binary, hO, hL, hD, hC]
    rw [buildCabRel_eval]
    simp only [ComponentArchBinary.component, ComponentArchBinary.architecture,
      getCI_cabRel_component, getCI_cabRel_architecture]
    rw [hc2]
    simp
  · intro hc ha
    have hc2 : m.components.contains c = true := by
      simpa using hc
    have ha2 : m.architectures.contains a = false := by
      simpa using ha
    simp only [add_component_arch_binary, hO, hL, hD, hC]
    rw [buildCabRel_eval]
    simp only [ComponentArchBinary.component, ComponentArchBinary.architecture,
      getCI_cabRel_component, getCI_cabRel_architecture]
    rw [hc2, ha2]
    simp

/-- C2 witness: the literal messages of the repository's unit test
`test_metadata_get_component_arch_binary`. -/
theorem add_component_arch_binary_rejects_undeclared_witness :
    (add_component_arch_binary unitTestMeta "BOGUS" "amd64" =
      (Except.error (PyErr.valueError
        "Component BOGUS not supported (expected: main, updates)"), unitTestMeta))
    ∧ (add_component_arch_binary unitTestMeta "main" "BOGUS" =
      (Except.error (PyErr.valueError
        "Architecture BOGUS not defined (expected: amd64, i386, aarch64)"), unitTestMeta)) := by
  have h := add_component_arch_binary_rejects_undeclared unitTestMeta "BOGUS" "amd64"
    (RelVal.str "unit_test_repo_foo") (RelVal.str "unit_test_repo_foo")
    (RelVal.str "Apt repository for Unit Test Repo Foo") (RelVal.str "stable")
    rfl rfl rfl rfl
  have h2 := add_component_arch_binary_rejects_undeclared unitTestMeta "main" "BOGUS"
    (RelVal.str "unit_test_repo_foo") (RelVal.str "unit_test_repo_foo")
    (RelVal.str "Apt repository for Unit Test Repo Foo") (RelVal.str "stable")
    rfl rfl rfl rfl
  exact ⟨h.1 (by decide), h2.2 (by decide) (by decide)⟩

/-! ## C3: the constructor's defaults -/

/-- C3 counterexample: with no explicit release document and no overrides,
the `Description` default is the codename `foo` itself, not its
capitalization `Foo` as the claim states. -/
theorem defaultMeta_description_not_capitalized :
    getCI defaultMeta.release "Description" = some (RelVal.str "foo")
      ∧ pyCapitalize "foo" = "Foo"
      ∧ RelVal.str "foo" ≠ RelVal.str "Foo" :=
  ⟨rfl, rfl, by decide⟩

/-- C3 (amended): with no explicit release document and no overrides the
release fields default to `Architectures = "amd64 i386"`, `Components = ""`,
`Codename = "foo"`, `Suite` = the codename, `Description` = the codename
itself (not capitalized), `Origin` = that `Description` default, `Label` =
the `Origin`, `Version = "1.0"`. -/
theorem AptRepoMeta_defaults (now : String) :
    getCI (AptRepoMeta.init now Option.none Option.none Option.none Option.none
        Option.none Option.none Option.none Option.none Option.none).release
        "Architectures" = some (RelVal.str "amd64 i386")
    ∧ getCI (AptRepoMeta.init now Option.none Option.none Option.none Option.none
        Option.none Option.none Option.none Option.none Option.none).release
        "Components" = some (RelVal.str "")
    ∧ getCI (AptRepoMeta.init now Option.none Option.none Option.none Option.none
        Option.none Option.none Option.none Option.none Option.none).release
        "Codename" = some (RelVal.str "foo")
    ∧ getCI (AptRepoMeta.init now Option.none Option.none Option.none Option.none
        Option.none Option.none Option.none Option.none Option.none).release
        "Suite" = some (RelVal.str "foo")
    ∧ getCI (AptRepoMeta.init now Option.none Option.none Option.none Option.none
        Option.none Option.none Option.none Option.none Option.none).release
        "Description" = some (RelVal.str "foo")
    ∧ getCI (AptRepoMeta.init now Option.none Option.none Option.none Option.none
        Option.none Option.none Option.none Option.none Option.none).release
        "Origin" = some (RelVal.str "foo")
    ∧ getCI (AptRepoMeta.init now Option.none Option.none Option.none Option.none
        Option.none Option.none Option.none Option.none Option.none).release
        "Label" = some (RelVal.str "foo")
    ∧ getCI (AptRepoMeta.init now Option.none Option.none Option.none Option.none
        Option.none Option.none Option.none Option.none Option.none).release
        "Version" = some (RelVal.str "1.0") :=
  ⟨rfl, rfl, rfl, rfl, rfl, rfl, rfl, rfl⟩

/-! ## C4: what `AptRepo.sign` stamps on the sign options -/

/-- C4 counterexample: signing with configured sign options does not set the
`dist` field — after `sign`, `dist` is still `None` although the repository's
codename is `unit_test_repo_foo`. -/
theorem sign_leaves_dist_unset :
    (match (AptRepo.sign signRepo "MyRelease").1.gpg_sign_options with
      | some so => getAttr so.attrs "dist"
      | Option.none => Option.none) = some PyVal.none
    ∧ signRepo.repo_name = some (RelVal.str "unit_test_repo_foo")
    ∧ PyVal.none ≠ PyVal.str "unit_test_repo_foo" :=
  ⟨rfl, rfl, by decide⟩

/-- C4 (amended): with sign options configured, `sign(release_file)` sets
only `repository_name` (to the repo's name, the metadata codename) on the
sign options and then delegates to `Signer.sign`; the `dist` field is left
exactly as it was.  With no sign options, `sign` is a no-op returning
nothing. -/
theorem AptRepo_sign_stamps_repository_name_only (r : AptRepo) (rf : String) :
    (r.gpg_sign_options = Option.none → r.sign rf = (r, Option.none))
    ∧ (∀ so, r.gpg_sign_options = some so →
        (r.sign rf).2 = some (Signer.sign
          ⟨setAttr so.attrs "repository_name" (optRelValToPyVal r.repo_name)⟩ rf).2
        ∧ (r.sign rf).1.gpg_sign_options = some (Signer.sign
          ⟨setAttr so.attrs "repository_name" (optRelValToPyVal r.repo_name)⟩ rf).1
        ∧ (∀ so2, (r.sign rf).1.gpg_sign_options = some so2 →
            getAttr so2.attrs "dist" = getAttr so.attrs "dist"
            ∧ getAttr so2.attrs "repository_name"
              = some (optRelValToPyVal r.repo_name))) := by
  constructor
  · intro h
    simp [AptRepo.sign, h]
  · intro so h
    refine ⟨by simp [AptRepo.sign, h], by simp [AptRepo.sign, h], ?_⟩
    intro so2 h2
    simp only [AptRepo.sign, h] at h2
    have hso2 : so2 = (Signer.sign
        ⟨setAttr so.attrs "repository_name" (optRelValToPyVal r.repo_name)⟩ rf).1 := by
      simpa using h2.symm
    subst hso2
    constructor
    · simp [Signer.sign]
      rw [getAttr_setAttr_other _ _ _ _ (by decide),
        getAttr_setAttr_other _ _ _ _ (by decide)]
    · simp [Signer.sign]
      rw [getAttr_setAttr_other _ _ _ _ (by decide), getAttr_setAttr_same]

/-- C4 witness: the scenario of `test_AptRepo_sign` — the subprocess
environment carries `GPG_CMD` and `GPG_REPOSITORY_NAME` and nothing else
(no `GPG_DIST`), and the options' `dist` stays `None`. -/
theorem AptRepo_sign_stamps_repository_name_only_witness :
    (AptRepo.sign signRepo "MyRelease").2
      = some ⟨["signme", "MyRelease"],
              [("GPG_CMD", "signme"), ("GPG_REPOSITORY_NAME", "unit_test_repo_foo")]⟩
    ∧ (match (AptRepo.sign signRepo "MyRelease").1.gpg_sign_options with
        | some so => getAttr so.attrs "dist"
        | Option.none => Option.none) = some PyVal.none := by
  have h := (AptRepo_sign_stamps_repository_name_only signRepo "MyRelease").2
    signmeOptions rfl
  obtain ⟨ha, hb, hc⟩ := h
  have hd := hc _ hb
  refine ⟨?_, ?_⟩
  · rw [ha]
    rfl
  · rw [hb]
    dsimp only
    rw [hd.1]
    rfl

/-! ## C5: error handling of `DebPkg.read_md5sums` -/

/-- C5: when neither encoding decodes the manifest, `read_md5sums` propagates
the last decoding error; when the archive reader raises a format-level
`DebError` (no per-file manifest in the archive), it warns and returns
`None`, which `DebPkg.__init__` turns into an empty per-file hash map. -/
theorem read_md5sums_error_handling (attempt : String → MD5Outcome)
    (e1 e2 msg : String) :
    (attempt "utf-8" = MD5Outcome.unicodeError e1 →
      attempt "iso-8859-1" = MD5Outcome.unicodeError e2 →
      read_md5sums attempt = ReadMD5Result.raised e2)
    ∧ ((∀ enc, attempt enc = MD5Outcome.debError msg) →
      read_md5sums attempt = ReadMD5Result.warnedNone msg
      ∧ debPkgMD5Field (readResultManifest (read_md5sums attempt)) = []) := by
  constructor
  · intro h1 h2
    simp [read_md5sums, ENCODINGS, read_md5sums_loop, h1, h2]
  · intro h
    have h1 := h "utf-8"
    constructor
    · simp [read_md5sums, ENCODINGS, read_md5sums_loop, h1]
    · simp [read_md5sums, ENCODINGS, read_md5sums_loop, h1, readResultManifest,
        debPkgMD5Field]

/-- C5 witness: a concrete archive whose manifest decodes under no encoding,
and a concrete archive with no manifest at all. -/
theorem read_md5sums_error_handling_witness :
    read_md5sums (fun enc =>
      if enc = "utf-8" then MD5Outcome.unicodeError "bad utf-8 byte"
      else MD5Outcome.unicodeError "bad latin-1 byte") = ReadMD5Result.raised "bad latin-1 byte"
    ∧ read_md5sums (fun _ => MD5Outcome.debError "missing md5sums")
      = ReadMD5Result.warnedNone "missing md5sums"
    ∧ debPkgMD5Field (readResultManifest
        (read_md5sums (fun _ => MD5Outcome.debError "missing md5sums"))) = [] := by
  have h1 := (read_md5sums_error_handling (fun enc =>
    if enc = "utf-8" then MD5Outcome.unicodeError "bad utf-8 byte"
    else MD5Outcome.unicodeError "bad latin-1 byte") "bad utf-8 byte" "bad latin-1 byte"
    "unused").1 (by decide) (by decide)
  have h2 := (read_md5sums_error_handling (fun _ => MD5Outcome.debError "missing md5sums")
    "a" "b" "missing md5sums").2 (fun _ => rfl)
  exact ⟨h1, h2.1, h2.2⟩

/-! ## C9: the environment projection of `SignOptions` -/

/-- C9: `SignOptions(cmd="/bin/bash", repository_name="My repo")` with an
added `extra="foo"` attribute projects via `as_environment()` to exactly
`GPG_CMD`, `GPG_REPOSITORY_NAME`, `GPG_EXTRA`; in general every non-private,
non-`None` attribute is exported under `GPG_` + the name upper-cased with
hyphens replaced by underscores, and every exported entry arises from such an
attribute (private or unset attributes are omitted). -/
theorem as_environment_projection :
    binBashEnv = Except.ok
      [("GPG_CMD", "/bin/bash"), ("GPG_REPOSITORY_NAME", "My repo"),
       ("GPG_EXTRA", "foo")]
    ∧ (∀ so : SignOptions, ∀ k v, (k, v) ∈ so.attrs →
        startsWithUnderscore k = false → v ≠ PyVal.none →
        ("GPG_" ++ pyUpper (replaceHyphens k), pyStr v) ∈ so.as_environment)
    ∧ (∀ so : SignOptions, ∀ e, e ∈ so.as_environment →
        ∃ k v, (k, v) ∈ so.attrs ∧ startsWithUnderscore k = false
          ∧ v ≠ PyVal.none
          ∧ e = ("GPG_" ++ pyUpper (replaceHyphens k), pyStr v)) := by
  refine ⟨rfl, ?_, ?_⟩
  · intro so k v hmem hpriv hv
    refine List.mem_filterMap.mpr ⟨(k, v), hmem, ?_⟩
    simp [hpriv, hv]
  · intro so e he
    simp only [SignOptions.as_environment] at he
    obtain ⟨kv, hkv, hf⟩ := List.mem_filterMap.mp he
    split at hf
    · cases hf
    · rename_i hcond
      push_neg at hcond
      refine ⟨kv.1, kv.2, hkv, by simpa using hcond.1, hcond.2, ?_⟩
      cases hf
      rfl

/-! ## C10: `Signer.sign` permanently grows the shared command vector -/

/-- C10: `Signer.sign(path)` appends `path` to the options object's own
`_cmdargs` list: the stored vector grows by exactly that one element, and a
second `sign` on the same options invokes the command with both the previous
path and the new path among its arguments. -/
theorem Signer_sign_appends_to_shared_cmdargs (so : SignOptions) (p1 p2 : String) :
    (Signer.sign so p1).1.cmdargs = so.cmdargs ++ [p1]
    ∧ (Signer.sign so p1).1.cmdargs.length = so.cmdargs.length + 1
    ∧ (Signer.sign so p1).2.argv = so.cmdargs ++ [p1]
    ∧ (Signer.sign (Signer.sign so p1).1 p2).2.argv = so.cmdargs ++ [p1, p2]
    ∧ p1 ∈ (Signer.sign (Signer.sign so p1).1 p2).2.argv
    ∧ p2 ∈ (Signer.sign (Signer.sign so p1).1 p2).2.argv := by
  have h1 : (Signer.sign so p1).1.cmdargs = so.cmdargs ++ [p1] := by
    simp [Signer.sign, cmdargs_after_setAttr]
  have h2 : (Signer.sign (Signer.sign so p1).1 p2).2.argv = so.cmdargs ++ [p1, p2] := by
    simp [Signer.sign, cmdargs_after_setAttr]
  refine ⟨h1, by simp [h1], by simp [Signer.sign], h2, ?_, ?_⟩
  · rw [h2]
    simp
  · rw [h2]
    simp

/-! ## C7: the Hasher cache is never stale -/

lemma update_nil (h : Hasher) : h.update [] = h := rfl

lemma runOps_eq_specFedReads (hex : String → List Nat → String) :
    ∀ (ops : List HOp) (algs : List String) (fed : List Nat) (h : Hasher),
      h.hashers = algs.map (fun a => (a, fed)) → hasherCoherent hex h →
      Hasher.runOps hex h ops = specFedReads hex algs fed ops := by
  intro ops
  induction ops with
  | nil => intro algs fed h hh hc; rfl
  | cons op rest ih =>
    intro algs fed h hh hc
    cases op with
    | upd d =>
      by_cases hd : d.isEmpty
      · have hdnil : d = [] := by simpa using hd
        subst hdnil
        simp only [Hasher.runOps, specFedReads, update_nil, List.append_nil]
        exact ih algs fed h hh hc
      · simp only [Hasher.runOps, specFedReads]
        apply ih
        · simp only [Hasher.update, hh, List.map_map]
          rw [if_neg hd]
          rfl
        · simp only [hasherCoherent, Hasher.update]
          rw [if_neg hd]
          exact Or.inl rfl
    | read =>
      have hdig : (h.digestsRead hex).1 = algs.map (fun a => (a, hex a fed)) := by
        cases hc with
        | inl hnone =>
          simp only [Hasher.digestsRead, hnone, hh, List.map_map]
          rfl
        | inr hsome =>
          simp only [Hasher.digestsRead, hsome, hh, List.map_map]
          rfl
      have hstate : (h.digestsRead hex).2.hashers = h.hashers
          ∧ hasherCoherent hex (h.digestsRead hex).2 := by
        cases hc with
        | inl hnone =>
          constructor
          · simp [Hasher.digestsRead, hnone]
          · right
            simp [Hasher.digestsRead, hnone]
        | inr hsome =>
          constructor
          · simp [Hasher.digestsRead, hsome]
          · right
            simp [Hasher.digestsRead, hsome]
      simp only [Hasher.runOps, specFedReads, hdig]
      rw [ih algs fed (h.digestsRead hex).2 (hstate.1.trans hh) hstate.2]

/-- C7: starting from a fresh `Hasher`, any interleaving of updates and
digest reads returns, at every read, the digest of exactly the bytes fed so
far (a memoized digest is never served stale across an update), and an
update with empty input is a no-op on the whole state, memoized digests
included. -/
theorem Hasher_digests_reflect_all_updates (hex : String → List Nat → String)
    (available algorithms : List String) (ops : List HOp) :
    Hasher.runOps hex (Hasher.init available algorithms) ops
      = specFedReads hex (selectedAlgs available algorithms) [] ops
    ∧ ∀ h : Hasher, h.update [] = h := by
  constructor
  · exact runOps_eq_specFedReads hex ops (selectedAlgs available algorithms) []
      (Hasher.init available algorithms) rfl (Or.inl rfl)
  · intro h
    rfl

/-! ## C8: `deb_hash_file` is `hash_file` with the keys renamed -/

lemma chunksOf_flatten (data : List Nat) : (chunksOf data).flatten = data := by
  generalize hn : data.length = n
  induction n using Nat.strong_induction_on generalizing data with
  | _ n ih =>
    rw [chunksOf]
    by_cases hd : data.isEmpty
    · have : data = [] := by simpa using hd
      subst this
      simp
    · have hlen : (data.drop BLOCKSIZE).length < n := by
        have hpos : 0 < data.length := by
          cases data with
          | nil => simp at hd
          | cons a as => simp
        subst hn
        simp only [List.length_drop]
        have : 0 < BLOCKSIZE := by norm_num [BLOCKSIZE]
        omega
      rw [if_neg hd, List.flatten_cons, ih _ hlen _ rfl]
      exact List.take_append_drop _ _

lemma runOps_upds_read (hex : String → List Nat → String) (chunks : List (List Nat)) :
    ∀ h : Hasher, Hasher.runOps hex h (chunks.map HOp.upd ++ [HOp.read])
      = [((chunks.foldl Hasher.update h).digestsRead hex).1] := by
  induction chunks with
  | nil => intro h; rfl
  | cons c cs ih =>
    intro h
    simp only [List.map_cons, List.cons_append, Hasher.runOps, List.foldl_cons]
    exact ih (h.update c)

lemma specFedReads_upds_read (hex : String → List Nat → String)
    (algs : List String) (chunks : List (List Nat)) :
    ∀ fed, specFedReads hex algs fed (chunks.map HOp.upd ++ [HOp.read])
      = [algs.map (fun a => (a, hex a (fed ++ chunks.flatten)))] := by
  induction chunks with
  | nil =>
    intro fed
    simp [specFedReads]
  | cons c cs ih =>
    intro fed
    simp only [List.map_cons, List.cons_append, specFedReads, List.append_eq]
    rw [ih (fed ++ c)]
    simp [List.append_assoc]

lemma hashFileDigests_eval (hex : String → List Nat → String)
    (available : List String) (contents : List Nat) (algs : List String) :
    hashFileDigests hex available contents algs
      = (selectedAlgs available algs).map (fun a => (a, hex a contents)) := by
  have h1 := runOps_eq_specFedReads hex ((chunksOf contents).map HOp.upd ++ [HOp.read])
    (selectedAlgs available algs) [] (Hasher.init available algs) rfl (Or.inl rfl)
  rw [runOps_upds_read, specFedReads_upds_read, List.nil_append, chunksOf_flatten] at h1
  have h2 : (((chunksOf contents).foldl Hasher.update
      (Hasher.init available algs)).digestsRead hex).1
      = (selectedAlgs available algs).map (fun a => (a, hex a contents)) := by
    injection h1
  exact h2

/-- C8: `deb_hash_file` returns exactly the digests of
`hash_file(path, [md5, sha1, sha256])` with the keys renamed through the
translation dict (`md5 → MD5sum`, `sha1 → SHA1`, `sha256 → SHA256`), same
hex values and no other entries; and both sides digest exactly the file's
contents for each requested algorithm the host supports. -/
theorem deb_hash_file_renames_hash_file (hex : String → List Nat → String)
    (available : List String) (contents : String → List Nat) (path : String) :
    deb_hash_file hex available contents path
      = (hash_file hex available contents path ["md5", "sha1", "sha256"]).map
          (fun p => (debKeyRename p.1, p.2))
    ∧ hash_file hex available contents path ["md5", "sha1", "sha256"]
      = (available.filter
          (fun a => (["md5", "sha1", "sha256"] : List String).contains a)).map
          (fun a => (a, hex a (contents path)))
    ∧ deb_hash_file hex available contents path
      = (available.filter
          (fun a => (["md5", "sha1", "sha256"] : List String).contains a)).map
          (fun a => (debKeyRename a, hex a (contents path))) := by
  have hf : hash_file hex available contents path ["md5", "sha1", "sha256"]
      = (available.filter
          (fun a => (["md5", "sha1", "sha256"] : List String).contains a)).map
          (fun a => (a, hex a (contents path))) := by
    unfold hash_file
    rw [hashFileDigests_eval]
    rfl
  refine ⟨rfl, hf, ?_⟩
  have : deb_hash_file hex available contents path
      = (hash_file hex available contents path ["md5", "sha1", "sha256"]).map
          (fun p => (debKeyRename p.1, p.2)) := rfl
  rw [this, hf, List.map_map]
  rfl

/-! ## C6: `best_choice` -/

lemma charListLt_iff : ∀ as bs : List Char, charListLt as bs = true ↔ as < bs := by
  intro as
  induction as with
  | nil =>
    intro bs
    cases bs with
    | nil =>
      constructor
      · intro h
        simp [charListLt] at h
      · intro h
        cases h
    | cons b bs =>
      constructor
      · intro _
        exact List.Lex.nil
      · intro _
        rfl
  | cons a as ih =>
    intro bs
    cases bs with
    | nil =>
      constructor
      · intro h
        simp [charListLt] at h
      · intro h
        cases h
    | cons b bs =>
      show (if a.val < b.val then true
        else if b.val < a.val then false else charListLt as bs) = true ↔ _
      by_cases h1 : a.val < b.val
      · rw [if_pos h1]
        constructor
        · intro _
          exact List.Lex.rel h1
        · intro _
          rfl
      · rw [if_neg h1]
        by_cases h2 : b.val < a.val
        · rw [if_pos h2]
          constructor
          · intro h
            cases h
          · intro h
            cases h with
            | cons htl => exact absurd h2 (UInt32.lt_irrefl _)
            | rel hab => exact absurd hab h1
        · rw [if_neg h2]
          have hab : a = b := Char.ext (UInt32.eq_of_toBitVec_eq
            (BitVec.le_antisymm (UInt32.not_lt.mp h2) (UInt32.not_lt.mp h1)))
          subst hab
          constructor
          · intro h
            exact List.Lex.cons ((ih bs).mp h)
          · intro h
            cases h with
            | cons htl => exact (ih bs).mpr htl
            | rel hr => exact absurd hr h1

lemma pyStrLt_iff (a b : String) : pyStrLt a b = true ↔ a < b := by
  rw [String.lt_iff_toList_lt]
  exact charListLt_iff a.data b.data

lemma minFrom_mem (r : FileN → Nat) :
    ∀ (fs : List FileN) (cur : FileN), minFrom r cur fs ∈ cur :: fs := by
  intro fs
  induction fs with
  | nil => intro cur; simp [minFrom]
  | cons f fs ih =>
    intro cur
    simp only [minFrom]
    by_cases h : r f < r cur
    · rw [if_pos h]
      exact List.mem_cons_of_mem cur (ih f)
    · rw [if_neg h]
      rcases List.mem_cons.mp (ih cur) with h1 | h1
      · exact List.mem_cons.mpr (Or.inl h1)
      · exact List.mem_cons.mpr (Or.inr (List.mem_cons.mpr (Or.inr h1)))

lemma minFrom_le (r : FileN → Nat) :
    ∀ (fs : List FileN) (cur x : FileN), x ∈ cur :: fs →
      r (minFrom r cur fs) ≤ r x := by
  intro fs
  induction fs with
  | nil =>
    intro cur x hx
    rcases List.mem_cons.mp hx with h | h
    · subst h; simp [minFrom]
    · exact absurd h (List.not_mem_nil x)
  | cons f fs ih =>
    intro cur x hx
    simp only [minFrom]
    by_cases h : r f < r cur
    · rw [if_pos h]
      rcases List.mem_cons.mp hx with h1 | h1
      · subst h1
        calc r (minFrom r f fs) ≤ r f := ih f f (List.mem_cons_self f fs)
          _ ≤ r x := le_of_lt h
      · exact ih f x h1
    · rw [if_neg h]
      rcases List.mem_cons.mp hx with h1 | h1
      · subst h1
        exact ih x x (List.mem_cons_self x fs)
      · rcases List.mem_cons.mp h1 with h2 | h2
        · subst h2
          calc r (minFrom r cur fs) ≤ r cur := ih cur cur (List.mem_cons_self cur fs)
            _ ≤ r x := le_of_not_lt h
        · exact ih cur x (List.mem_cons.mpr (Or.inr h2))

lemma keys_addToGroups (f : FileN) : ∀ gs : List (String × List FileN),
    (addToGroups gs f).map Prod.fst =
      if f.base_name ∈ gs.map Prod.fst then gs.map Prod.fst
      else gs.map Prod.fst ++ [f.base_name] := by
  intro gs
  induction gs with
  | nil => simp [addToGroups]
  | cons g rest ih =>
    obtain ⟨b, fs⟩ := g
    simp only [addToGroups]
    by_cases h : b = f.base_name
    · rw [if_pos h]
      simp [h]
    · rw [if_neg h]
      simp only [List.map_cons]
      rw [ih]
      by_cases h2 : f.base_name ∈ rest.map Prod.fst
      · rw [if_pos h2, if_pos]
        simp only [List.map_cons, List.mem_cons]
        exact Or.inr h2
      · rw [if_neg h2, if_neg]
        · simp
        · simp only [List.map_cons, List.mem_cons]
          push_neg
          exact ⟨fun hx => h hx.symm, h2⟩

lemma wf_addToGroups (f : FileN) : ∀ gs, GroupsWF gs → GroupsWF (addToGroups gs f) := by
  intro gs
  induction gs with
  | nil =>
    intro _
    constructor
    · simp [addToGroups]
    · intro g hg
      simp only [addToGroups, List.mem_singleton] at hg
      subst hg
      refine ⟨by simp, ?_⟩
      intro x hx
      simp only [List.mem_singleton] at hx
      subst hx
      rfl
  | cons g0 rest ih =>
    intro hwf
    obtain ⟨b, fs⟩ := g0
    obtain ⟨hnd, hmem⟩ := hwf
    simp only [List.map_cons, List.nodup_cons] at hnd
    simp only [addToGroups]
    by_cases h : b = f.base_name
    · rw [if_pos h]
      constructor
      · simp only [List.map_cons, List.nodup_cons]
        exact hnd
      · intro g hg
        rcases List.mem_cons.mp hg with h1 | h1
        · subst h1
          obtain ⟨hne0, hbase0⟩ := hmem (b, fs) (List.mem_cons_self _ _)
          by_cases hc : fs.contains f
          · rw [if_pos hc]
            exact ⟨hne0, hbase0⟩
          · rw [if_neg hc]
            refine ⟨by simp, ?_⟩
            intro x hx
            rcases List.mem_append.mp hx with h2 | h2
            · exact hbase0 x h2
            · simp only [List.mem_singleton] at h2
              subst h2
              exact h.symm
        · exact hmem g (List.mem_cons_of_mem _ h1)
    · rw [if_neg h]
      have hrest : GroupsWF rest :=
        ⟨hnd.2, fun g hg => hmem g (List.mem_cons_of_mem _ hg)⟩
      have ihr := ih hrest
      constructor
      · simp only [List.map_cons, List.nodup_cons]
        refine ⟨?_, ihr.1⟩
        rw [keys_addToGroups]
        by_cases h2 : f.base_name ∈ rest.map Prod.fst
        · rw [if_pos h2]
          exact hnd.1
        · rw [if_neg h2]
          simp only [List.mem_append, List.mem_singleton]
          push_neg
          exact ⟨hnd.1, h⟩
      · intro g hg
        rcases List.mem_cons.mp hg with h1 | h1
        · subst h1
          exact hmem (b, fs) (List.mem_cons_self _ _)
        · exact ihr.2 g h1

lemma sub_addToGroups (f : FileN) : ∀ gs done, GroupsSub gs done →
    GroupsSub (addToGroups gs f) (done ++ [f]) := by
  intro gs
  induction gs with
  | nil =>
    intro done _ g hg x hx
    simp only [addToGroups, List.mem_singleton] at hg
    subst hg
    simp only [List.mem_singleton] at hx
    subst hx
    simp
  | cons g0 rest ih =>
    intro done hsub
    obtain ⟨b, fs⟩ := g0
    simp only [addToGroups]
    by_cases h : b = f.base_name
    · rw [if_pos h]
      intro g hg x hx
      rcases List.mem_cons.mp hg with h1 | h1
      · subst h1
        by_cases hc : fs.contains f
        · rw [if_pos hc] at hx
          exact List.mem_append_left _ (hsub _ (List.mem_cons_self _ _) x hx)
        · rw [if_neg hc] at hx
          rcases List.mem_append.mp hx with h2 | h2
          · exact List.mem_append_left _ (hsub _ (List.mem_cons_self _ _) x h2)
          · simp only [List.mem_singleton] at h2
            subst h2
            simp
      · exact List.mem_append_left _ (hsub g (List.mem_cons_of_mem _ h1) x hx)
    · rw [if_neg h]
      intro g hg x hx
      rcases List.mem_cons.mp hg with h1 | h1
      · subst h1
        exact List.mem_append_left _ (hsub _ (List.mem_cons_self _ _) x hx)
      · exact ih done (fun g2 hg2 => hsub g2 (List.mem_cons_of_mem _ hg2)) g h1 x hx

lemma mono_addToGroups (f : FileN) : ∀ gs g, g ∈ gs →
    ∃ g2 ∈ addToGroups gs f, g2.1 = g.1 ∧ ∀ x ∈ g.2, x ∈ g2.2 := by
  intro gs
  induction gs with
  | nil => intro g hg; exact absurd hg (List.not_mem_nil g)
  | cons g0 rest ih =>
    intro g hg
    obtain ⟨b, fs⟩ := g0
    simp only [addToGroups]
    by_cases h : b = f.base_name
    · rw [if_pos h]
      rcases List.mem_cons.mp hg with h1 | h1
      · subst h1
        refine ⟨(b, if fs.contains f then fs else fs ++ [f]),
          List.mem_cons_self _ _, rfl, ?_⟩
        intro x hx
        by_cases hc : fs.contains f
        · rw [if_pos hc]; exact hx
        · rw [if_neg hc]; exact List.mem_append_left _ hx
      · exact ⟨g, List.mem_cons_of_mem _ h1, rfl, fun x hx => hx⟩
    · rw [if_neg h]
      rcases List.mem_cons.mp hg with h1 | h1
      · subst h1
        exact ⟨(b, fs), List.mem_cons_self _ _, rfl, fun x hx => hx⟩
      · obtain ⟨g2, hg2, hkey, hsub2⟩ := ih g h1
        exact ⟨g2, List.mem_cons_of_mem _ hg2, hkey, hsub2⟩

lemma self_mem_addToGroups (f : FileN) : ∀ gs, ∃ g ∈ addToGroups gs f, f ∈ g.2 := by
  intro gs
  induction gs with
  | nil =>
    refine ⟨(f.base_name, [f]), ?_, by simp⟩
    simp [addToGroups]
  | cons g0 rest ih =>
    obtain ⟨b, fs⟩ := g0
    simp only [addToGroups]
    by_cases h : b = f.base_name
    · rw [if_pos h]
      refine ⟨(b, if fs.contains f then fs else fs ++ [f]),
        List.mem_cons_self _ _, ?_⟩
      by_cases hc : fs.contains f
      · rw [if_pos hc]
        simpa using hc
      · rw [if_neg hc]
        simp
    · rw [if_neg h]
      obtain ⟨g, hg, hf⟩ := ih
      exact ⟨g, List.mem_cons_of_mem _ hg, hf⟩

lemma cov_addToGroups (f : FileN) (gs : List (String × List FileN))
    (done : List FileN) (h : GroupsCov done gs) :
    GroupsCov (done ++ [f]) (addToGroups gs f) := by
  intro x hx
  rcases List.mem_append.mp hx with h1 | h1
  · obtain ⟨g, hg, hxg⟩ := h x h1
    obtain ⟨g2, hg2, _, hsub⟩ := mono_addToGroups f gs g hg
    exact ⟨g2, hg2, hsub x hxg⟩
  · simp only [List.mem_singleton] at h1
    subst h1
    exact self_mem_addToGroups x gs

lemma wf_foldl (l : List FileN) : ∀ gs, GroupsWF gs → GroupsWF (l.foldl addToGroups gs) := by
  induction l with
  | nil => intro gs h; exact h
  | cons f rest ih => intro gs h; exact ih _ (wf_addToGroups f gs h)

lemma sub_foldl (l : List FileN) : ∀ gs done, GroupsSub gs done →
    GroupsSub (l.foldl addToGroups gs) (done ++ l) := by
  induction l with
  | nil => intro gs done h; simpa using h
  | cons f rest ih =>
    intro gs done h
    have h2 := ih (addToGroups gs f) (done ++ [f]) (sub_addToGroups f gs done h)
    simpa using h2

lemma cov_foldl (l : List FileN) : ∀ gs done, GroupsCov done gs →
    GroupsCov (done ++ l) (l.foldl addToGroups gs) := by
  induction l with
  | nil => intro gs done h; simpa using h
  | cons f rest ih =>
    intro gs done h
    have h2 := ih (addToGroups gs f) (done ++ [f]) (cov_addToGroups f gs done h)
    simpa using h2

lemma groupsOf_wf (prefs names : List String) : GroupsWF (groupsOf prefs names) := by
  refine wf_foldl _ [] ⟨by simp, ?_⟩
  intro g hg
  exact absurd hg (List.not_mem_nil g)

lemma groupsOf_sub (prefs names : List String) :
    GroupsSub (groupsOf prefs names) (keptFiles prefs names) := by
  have h := sub_foldl (keptFiles prefs names) [] []
    (fun g hg => absurd hg (List.not_mem_nil g))
  simpa using h

lemma groupsOf_cov (prefs names : List String) :
    GroupsCov (keptFiles prefs names) (groupsOf prefs names) := by
  have h := cov_foldl (keptFiles prefs names) [] []
    (fun f hf => absurd hf (List.not_mem_nil f))
  simpa using h

lemma mkFileN_path (q : String) : (mkFileN q).path = q := rfl

lemma keptFiles_facts (prefs names : List String) (f : FileN)
    (hf : f ∈ keptFiles prefs names) :
    f.path ∈ names ∧ mkFileN f.path = f ∧ (rankOf prefs f.extension).isSome := by
  simp only [keptFiles, List.mem_filter, List.mem_map] at hf
  obtain ⟨⟨q, hq, hqf⟩, hrank⟩ := hf
  subst hqf
  exact ⟨by rw [mkFileN_path]; exact hq, by rw [mkFileN_path], hrank⟩

lemma mem_keptFiles (prefs names : List String) (q : String) (hq : q ∈ names)
    (hrank : (rankOf prefs (mkFileN q).extension).isSome) :
    mkFileN q ∈ keptFiles prefs names := by
  simp only [keptFiles, List.mem_filter, List.mem_map]
  exact ⟨⟨q, hq, rfl⟩, hrank⟩

lemma insertGroup_perm (g : String × List FileN) :
    ∀ l, List.Perm (insertGroup g l) (g :: l) := by
  intro l
  induction l with
  | nil => simp [insertGroup]
  | cons g1 rest ih =>
    simp only [insertGroup]
    by_cases h : pyStrLt g.1 g1.1
    · rw [if_pos h]
    · rw [if_neg h]
      exact List.Perm.trans (List.Perm.cons g1 ih) (List.Perm.swap g g1 rest)

lemma sortGroups_perm : ∀ l : List (String × List FileN),
    List.Perm (sortGroups l) l := by
  intro l
  induction l with
  | nil => simp [sortGroups]
  | cons g rest ih =>
    simp only [sortGroups]
    exact List.Perm.trans (insertGroup_perm g (sortGroups rest)) (List.Perm.cons g ih)

lemma insertGroup_sorted (g : String × List FileN) :
    ∀ l, List.Pairwise (fun x y => x.1 < y.1) l → (∀ x ∈ l, g.1 ≠ x.1) →
      List.Pairwise (fun x y => x.1 < y.1) (insertGroup g l) := by
  intro l
  induction l with
  | nil => intro _ _; simp [insertGroup]
  | cons g1 rest ih =>
    intro hp hne
    simp only [insertGroup]
    obtain ⟨hhead, htail⟩ := List.pairwise_cons.mp hp
    by_cases h : pyStrLt g.1 g1.1
    · rw [if_pos h]
      have hlt : g.1 < g1.1 := (pyStrLt_iff _ _).mp h
      refine List.Pairwise.cons ?_ hp
      intro y hy
      rcases List.mem_cons.mp hy with h1 | h1
      · rw [h1]
        exact hlt
      · exact lt_trans hlt (hhead y h1)
    · rw [if_neg h]
      have hne1 : g.1 ≠ g1.1 := hne g1 (List.mem_cons_self _ _)
      have hgt : g1.1 < g.1 := by
        rcases lt_trichotomy g.1 g1.1 with h1 | h1 | h1
        · exact absurd ((pyStrLt_iff _ _).mpr h1) h
        · exact absurd h1 hne1
        · exact h1
      refine List.Pairwise.cons ?_
        (ih htail (fun x hx => hne x (List.mem_cons_of_mem _ hx)))
      intro y hy
      have hy2 : y = g ∨ y ∈ rest :=
        List.mem_cons.mp ((insertGroup_perm g rest).mem_iff.mp hy)
      rcases hy2 with h1 | h1
      · rw [h1]
        exact hgt
      · exact hhead y h1

lemma sortGroups_sorted : ∀ l : List (String × List FileN),
    (l.map Prod.fst).Nodup →
    List.Pairwise (fun x y => x.1 < y.1) (sortGroups l) := by
  intro l
  induction l with
  | nil => intro _; simp [sortGroups]
  | cons g rest ih =>
    intro hnd
    simp only [List.map_cons, List.nodup_cons] at hnd
    simp only [sortGroups]
    refine insertGroup_sorted g (sortGroups rest) (ih hnd.2) ?_
    intro x hx heq
    have hx2 : x ∈ rest := (sortGroups_perm rest).mem_iff.mp hx
    exact hnd.1 (by rw [heq]; exact List.mem_map_of_mem Prod.fst hx2)

lemma key_unique : ∀ gs : List (String × List FileN), (gs.map Prod.fst).Nodup →
    ∀ g1 g2, g1 ∈ gs → g2 ∈ gs → g1.1 = g2.1 → g1 = g2 := by
  intro gs
  induction gs with
  | nil =>
    intro _ g1 g2 h1
    exact absurd h1 (List.not_mem_nil g1)
  | cons g rest ih =>
    intro hnd g1 g2 h1 h2 heq
    simp only [List.map_cons, List.nodup_cons] at hnd
    rcases List.mem_cons.mp h1 with ha | ha <;> rcases List.mem_cons.mp h2 with hb | hb
    · rw [ha, hb]
    · subst ha
      exact absurd (by rw [heq]; exact List.mem_map_of_mem Prod.fst hb) hnd.1
    · subst hb
      exact absurd (by rw [← heq]; exact List.mem_map_of_mem Prod.fst ha) hnd.1
    · exact ih hnd.2 g1 g2 ha hb heq

lemma best_choice_eq (prefs names : List String) :
    best_choice prefs names
      = (sortGroups (groupsOf prefs names)).filterMap (pickWinner prefs) := rfl

lemma filterMap_pick_bases (prefs : List String) :
    ∀ gs : List (String × List FileN),
    (∀ g ∈ gs, g.2 ≠ [] ∧ ∀ x ∈ g.2, x.base_name = g.1 ∧ mkFileN x.path = x) →
    ((gs.filterMap (pickWinner prefs)).map (fun p => (mkFileN p).base_name))
      = gs.map Prod.fst := by
  intro gs
  induction gs with
  | nil => intro _; simp
  | cons g rest ih =>
    intro hfacts
    obtain ⟨hne, hmem⟩ := hfacts g (List.mem_cons_self _ _)
    obtain ⟨f, fs, hg2⟩ : ∃ f fs, g.2 = f :: fs := by
      cases hg : g.2 with
      | nil => exact absurd hg hne
      | cons f fs => exact ⟨f, fs, rfl⟩
    have hwin : minFrom (fun x => (rankOf prefs x.extension).getD 1000) f fs ∈ g.2 := by
      rw [hg2]
      exact minFrom_mem _ fs f
    have hpick : pickWinner prefs g =
        some (minFrom (fun x => (rankOf prefs x.extension).getD 1000) f fs).path := by
      simp [pickWinner, hg2]
    rw [List.filterMap_cons_some hpick, List.map_cons,
      ih (fun g2 hg2m => hfacts g2 (List.mem_cons_of_mem _ hg2m)), List.map_cons,
      (hmem _ hwin).2, (hmem _ hwin).1]

lemma best_choice_sorted (prefs names : List String) :
    List.Pairwise (fun a b => a < b)
      ((best_choice prefs names).map (fun p => (mkFileN p).base_name)) := by
  have hwf := groupsOf_wf prefs names
  have hsub := groupsOf_sub prefs names
  have heq : ((best_choice prefs names).map (fun p => (mkFileN p).base_name))
      = (sortGroups (groupsOf prefs names)).map Prod.fst := by
    rw [best_choice_eq]
    apply filterMap_pick_bases
    intro g hg
    have hgmem := (sortGroups_perm _).mem_iff.mp hg
    obtain ⟨hne, hbase⟩ := hwf.2 g hgmem
    refine ⟨hne, fun x hx => ⟨hbase x hx, ?_⟩⟩
    exact (keptFiles_facts prefs names x (hsub g hgmem x hx)).2.1
  rw [heq]
  exact List.pairwise_map.mpr (sortGroups_sorted _ hwf.1)

lemma best_choice_members (prefs names : List String) (p : String)
    (hp : p ∈ best_choice prefs names) :
    p ∈ names ∧ (rankOf prefs (mkFileN p).extension).isSome := by
  rw [best_choice_eq] at hp
  obtain ⟨g, hg, hpick⟩ := List.mem_filterMap.mp hp
  obtain ⟨f, fs, hg2⟩ : ∃ f fs, g.2 = f :: fs := by
    cases hgg : g.2 with
    | nil => simp [pickWinner, hgg] at hpick
    | cons f fs => exact ⟨f, fs, rfl⟩
  have hpick2 : (minFrom (fun x => (rankOf prefs x.extension).getD 1000) f fs).path
      = p := by
    simpa [pickWinner, hg2] using hpick
  have hwin : minFrom (fun x => (rankOf prefs x.extension).getD 1000) f fs ∈ g.2 := by
    rw [hg2]
    exact minFrom_mem _ fs f
  have hgmem : g ∈ groupsOf prefs names := (sortGroups_perm _).mem_iff.mp hg
  have hkept := groupsOf_sub prefs names g hgmem _ hwin
  obtain ⟨hnames, hidem, hrank⟩ := keptFiles_facts prefs names _ hkept
  rw [← hpick2]
  constructor
  · exact hnames
  · rw [hidem]
    exact hrank

lemma best_choice_minimal (prefs names : List String) (p : String)
    (hp : p ∈ best_choice prefs names) (q : String) (hq : q ∈ names)
    (hqk : (rankOf prefs (mkFileN q).extension).isSome)
    (hbase : (mkFileN q).base_name = (mkFileN p).base_name) :
    (rankOf prefs (mkFileN p).extension).getD 1000
      ≤ (rankOf prefs (mkFileN q).extension).getD 1000 := by
  have hwf := groupsOf_wf prefs names
  rw [best_choice_eq] at hp
  obtain ⟨g, hg, hpick⟩ := List.mem_filterMap.mp hp
  obtain ⟨f, fs, hg2⟩ : ∃ f fs, g.2 = f :: fs := by
    cases hgg : g.2 with
    | nil => simp [pickWinner, hgg] at hpick
    | cons f fs => exact ⟨f, fs, rfl⟩
  have hpick2 : (minFrom (fun x => (rankOf prefs x.extension).getD 1000) f fs).path
      = p := by
    simpa [pickWinner, hg2] using hpick
  have hwin : minFrom (fun x => (rankOf prefs x.extension).getD 1000) f fs ∈ g.2 := by
    rw [hg2]
    exact minFrom_mem _ fs f
  have hgmem : g ∈ groupsOf prefs names := (sortGroups_perm _).mem_iff.mp hg
  have hkept := groupsOf_sub prefs names g hgmem _ hwin
  obtain ⟨hnames, hidem, hrank⟩ := keptFiles_facts prefs names _ hkept
  have hidem2 : mkFileN p = minFrom (fun x => (rankOf prefs x.extension).getD 1000) f fs := by
    rw [← hpick2]
    exact hidem
  have hqkept := mem_keptFiles prefs names q hq hqk
  obtain ⟨g2, hg2mem, hqin⟩ := groupsOf_cov prefs names (mkFileN q) hqkept
  have hkeyg : (minFrom (fun x => (rankOf prefs x.extension).getD 1000) f fs).base_name
      = g.1 := (hwf.2 g hgmem).2 _ hwin
  have hkeyg2 : (mkFileN q).base_name = g2.1 := (hwf.2 g2 hg2mem).2 _ hqin
  have hgeq : g = g2 := by
    apply key_unique _ hwf.1 g g2 hgmem hg2mem
    rw [← hkeyg, ← hkeyg2, hbase, hidem2]
  have hqing : mkFileN q ∈ g.2 := by
    rw [hgeq]
    exact hqin
  have hqinfs : mkFileN q ∈ f :: fs := by
    rw [← hg2]
    exact hqing
  have := minFrom_le (fun x => (rankOf prefs x.extension).getD 1000) fs f
    (mkFileN q) hqinfs
  rw [hidem2]
  exact this

lemma best_choice_covers (prefs names : List String) (q : String) (hq : q ∈ names)
    (hqk : (rankOf prefs (mkFileN q).extension).isSome) :
    ∃ p ∈ best_choice prefs names,
      (mkFileN p).base_name = (mkFileN q).base_name := by
  have hwf := groupsOf_wf prefs names
  have hqkept := mem_keptFiles prefs names q hq hqk
  obtain ⟨g, hgmem, hqin⟩ := groupsOf_cov prefs names (mkFileN q) hqkept
  have hsort : g ∈ sortGroups (groupsOf prefs names) :=
    (sortGroups_perm _).mem_iff.mpr hgmem
  obtain ⟨hne, hbase⟩ := hwf.2 g hgmem
  obtain ⟨f, fs, hg2⟩ : ∃ f fs, g.2 = f :: fs := by
    cases hgg : g.2 with
    | nil => exact absurd hgg hne
    | cons f fs => exact ⟨f, fs, rfl⟩
  have hpick : pickWinner prefs g =
      some (minFrom (fun x => (rankOf prefs x.extension).getD 1000) f fs).path := by
    simp [pickWinner, hg2]
  have hwin : minFrom (fun x => (rankOf prefs x.extension).getD 1000) f fs ∈ g.2 := by
    rw [hg2]
    exact minFrom_mem _ fs f
  have hkept := groupsOf_sub prefs names g hgmem _ hwin
  obtain ⟨_, hidem, _⟩ := keptFiles_facts prefs names _ hkept
  refine ⟨(minFrom (fun x => (rankOf prefs x.extension).getD 1000) f fs).path, ?_, ?_⟩
  · rw [best_choice_eq]
    exact List.mem_filterMap.mpr ⟨g, hsort, hpick⟩
  · rw [hidem, hbase _ hwin, hbase _ hqin]

/-- C6: on the spec's concrete input with the default preferences,
`best_choice` returns exactly
`[path1/Packages.xz, path2/Packages, path3/Packages.bz2]`; in general the
result is sorted strictly by base name (hence one winner per distinct base
name), every winner is an input whose extension is ranked (recognised, or
none — ranked 1000), every winner's rank is minimal among the kept inputs
sharing its base name, and every kept input's base name has a winner;
candidates with an unrecognised extension are dropped (they never appear,
and a group made only of them does not exist). -/
theorem best_choice_ranking :
    best_choice (openerPreferences Option.none)
      ["path1/Packages.gz", "path3/Packages.bz2", "path1/Packages.xz",
       "path1/Packages.leave-me-alone", "path1/Packages", "path2/Packages"]
      = ["path1/Packages.xz", "path2/Packages", "path3/Packages.bz2"]
    ∧ (∀ prefs, rankOf prefs Option.none = some 1000)
    ∧ (∀ prefs names, List.Pairwise (fun a b => a < b)
        ((best_choice prefs names).map (fun p => (mkFileN p).base_name)))
    ∧ (∀ prefs names p, p ∈ best_choice prefs names →
        p ∈ names ∧ (rankOf prefs (mkFileN p).extension).isSome)
    ∧ (∀ prefs names p, p ∈ best_choice prefs names →
        ∀ q ∈ names, (rankOf prefs (mkFileN q).extension).isSome →
          (mkFileN q).base_name = (mkFileN p).base_name →
          (rankOf prefs (mkFileN p).extension).getD 1000
            ≤ (rankOf prefs (mkFileN q).extension).getD 1000)
    ∧ (∀ prefs names q, q ∈ names →
        (rankOf prefs (mkFileN q).extension).isSome →
        ∃ p ∈ best_choice prefs names,
          (mkFileN p).base_name = (mkFileN q).base_name) :=
  ⟨rfl, fun _ => rfl, best_choice_sorted,
   fun prefs names p hp => best_choice_members prefs names p hp,
   fun prefs names p hp q hq hqk hbase =>
     best_choice_minimal prefs names p hp q hq hqk hbase,
   fun prefs names q hq hqk => best_choice_covers prefs names q hq hqk⟩

end Debpkgr
